import Mathlib

/-!
Verification of the citation aggregation pipeline implemented in
src/Who-Cited-Me.py: identifier normalization (normalize_doi), the resilient
fetcher (make_request), the OpenAlex adapter pagination loop
(get_citations_from_openalex), the merge/dedup engine (merge_citations),
the enrichment stage (enrich_citation_metadata), the orchestrator loop (main)
and the depositor-report reader (read_dois_from_crossref_depositor_report).

Modelling conventions for the Python library primitives used by the code:

* Strings are modelled through their character lists (String.data).
* urllib.parse.unquote is modelled byte-wise: a percent sign followed by two
  hexadecimal digits decodes to the character with that code.  This agrees
  with Python for ASCII percent-escapes (the only ones exercised here);
  multi-byte UTF-8 escape runs are not modelled.
* str.strip, str.split, str.lower, str.upper and the regex classes are
  modelled on their ASCII behaviour (the Python originals additionally cover
  non-ASCII whitespace, case and digits, none of which appear in the data in
  play).
* Network effects are modelled by passing the environment (the sequence of
  HTTP outcomes, the fetched pages, the fetched report text, the Crossref
  lookup results) as an explicit function argument; sleeping is recorded in
  a trace instead of being performed.
-/

/-- ASCII whitespace as used by Python str.strip and str.split with no
separator: space, tab, LF, CR, VT and FF. -/
def isPySpace (c : Char) : Bool :=
  c.toNat == 32 || c.toNat == 9 || c.toNat == 10 || c.toNat == 13 ||
  c.toNat == 11 || c.toNat == 12

/-- Python str.strip: drop leading and trailing whitespace. -/
def pyStrip (l : List Char) : List Char :=
  ((l.dropWhile isPySpace).reverse.dropWhile isPySpace).reverse

/-- Python str.lower on the ASCII range: map A-Z to a-z, leave the rest. -/
def pyLower (c : Char) : Char :=
  if 65 ≤ c.toNat ∧ c.toNat ≤ 90 then Char.ofNat (c.toNat + 32) else c

/-- Python str.upper on the ASCII range: map a-z to A-Z, leave the rest. -/
def pyUpper (c : Char) : Char :=
  if 97 ≤ c.toNat ∧ c.toNat ≤ 122 then Char.ofNat (c.toNat - 32) else c

/-- Hexadecimal digits recognised by urllib.parse.unquote. -/
def isHexChar (c : Char) : Bool :=
  (48 ≤ c.toNat && c.toNat ≤ 57) || (97 ≤ c.toNat && c.toNat ≤ 102) ||
  (65 ≤ c.toNat && c.toNat ≤ 70)

/-- Value of a hexadecimal digit character. -/
def hexDigitVal (c : Char) : Nat :=
  if 48 ≤ c.toNat ∧ c.toNat ≤ 57 then c.toNat - 48
  else if 97 ≤ c.toNat then c.toNat - 87
  else c.toNat - 55

/-- Model of urllib.parse.unquote restricted to single-byte escapes: a
percent sign followed by two hex digits becomes the character with that
code; everything else is copied unchanged.  Code 37 is the percent sign. -/
def unquote : List Char → List Char
  | c :: a :: b :: rest =>
    if c.toNat = 37 ∧ isHexChar a ∧ isHexChar b then
      Char.ofNat (16 * hexDigitVal a + hexDigitVal b) :: unquote rest
    else c :: unquote (a :: b :: rest)
  | c :: rest => c :: unquote rest
  | [] => []

/-- Scan for a decodable percent-escape, mirroring the scan of unquote. -/
def hasPercentEscape : List Char → Bool
  | c :: a :: b :: rest =>
    if c.toNat = 37 ∧ isHexChar a ∧ isHexChar b then true
    else hasPercentEscape (a :: b :: rest)
  | _ :: rest => hasPercentEscape rest
  | [] => false

/-- ASCII decimal digit, the regex class backslash-d of the DOI pattern. -/
def isAsciiDigit (c : Char) : Bool :=
  48 ≤ c.toNat && c.toNat ≤ 57

/-- No line feed (code 10) occurs in the list; the regex dot of the DOI
pattern matches any character except a line feed. -/
def noNewlineChars (l : List Char) : Bool :=
  l.all (fun c => c.toNat != 10)

/-- Match of the regex fragment dot-plus-dollar against the rest of the
string: one or more non-newline characters, ending at the end of the string
or just before a single trailing newline. -/
def suffixMatchesDotPlusEnd (l : List Char) : Bool :=
  match l.getLast? with
  | none => false
  | some c =>
    if c.toNat = 10 then !(l.dropLast.isEmpty) && noNewlineChars l.dropLast
    else noNewlineChars l

/-- Anchored match of the Python regex pattern caret-1-0-dot, backslash-d
repeated at least four times, slash, dot-plus, dollar, as used by
normalize_doi (codes: 49 is the digit one, 48 the digit zero, 46 the full
stop, 47 the solidus). -/
def matchesDoiPattern (l : List Char) : Bool :=
  match l with
  | c1 :: c2 :: c3 :: rest =>
    c1.toNat == 49 && c2.toNat == 48 && c3.toNat == 46 &&
    decide (4 ≤ (rest.takeWhile isAsciiDigit).length) &&
    (match rest.dropWhile isAsciiDigit with
     | c :: suffix => c.toNat == 47 && suffixMatchesDotPlusEnd suffix
     | [] => false)
  | _ => false

/-- Fixed list of recognised DOI prefixes of normalize_doi, in the order the
code checks them. -/
def doiPrefixes : List (List Char) :=
  ["https://doi.org/".data, "http://doi.org/".data,
   "https://dx.doi.org/".data, "http://dx.doi.org/".data, "doi:".data]

/-- Prefix-removal step of normalize_doi: the first prefix that matches the
lowercased string is removed from the original-case string; at most one
prefix is removed. -/
def stripDoiScheme (l : List Char) : List Char :=
  match doiPrefixes.find? (fun p => p.isPrefixOf (l.map pyLower)) with
  | some p => l.drop p.length
  | none => l

/-- Model of normalize_doi: reject the empty string, percent-decode, strip,
remove a known prefix case-insensitively, strip again, then validate against
the DOI pattern and return the lowercased remainder, or signal invalid. -/
def normalize_doi (s : String) : Option String :=
  if s = "" then none
  else if matchesDoiPattern (pyStrip (stripDoiScheme (pyStrip (unquote s.data)))) then
    some (String.mk ((pyStrip (stripDoiScheme (pyStrip (unquote s.data)))).map pyLower))
  else none

/-- Citation record as built by the source adapters: canonical doi, title,
author display names, year string and the source tag of the adapter that
first produced it. -/
structure Citation where
  doi : String
  title : String
  authors : List String
  year : String
  source : String
deriving DecidableEq, Repr

/-- Field-level backfill of merge_citations for a doi that is already
present: each of title, authors and year is taken from the incoming record
exactly when the existing value is empty and the incoming one is not; doi
and source are untouched. -/
def backfillRecord (existing incoming : Citation) : Citation :=
  { existing with
    title := if existing.title = "" ∧ incoming.title ≠ "" then incoming.title
             else existing.title,
    authors := if existing.authors = [] ∧ incoming.authors ≠ [] then incoming.authors
               else existing.authors,
    year := if existing.year = "" ∧ incoming.year ≠ "" then incoming.year
            else existing.year }

/-- One step of the add_to_merged helper of merge_citations on the ordered
mapping (modelled as an insertion-ordered association list keyed by doi):
a new doi is appended, an existing doi has its record backfilled in place. -/
def add_to_merged (m : List Citation) (c : Citation) : List Citation :=
  if m.any (fun r => r.doi == c.doi) then
    m.map (fun r => if r.doi == c.doi then backfillRecord r c else r)
  else m ++ [c]

/-- Model of merge_citations: fold add_to_merged over the OpenAlex results
followed by the OpenCitations results, starting from the empty ordered
mapping, and return the values in insertion order. -/
def merge_citations (openalex_citations opencitations_citations : List Citation) :
    List Citation :=
  (openalex_citations ++ opencitations_citations).foldl add_to_merged []

/-- Specification-side step of first-insertion order: append a key unless it
was already seen. -/
def seenInsert (acc : List String) (d : String) : List String :=
  if acc.contains d then acc else acc ++ [d]

/-- Specification-side description of first-insertion order: the sequence of
doi values in the order each one is first seen. -/
def firstSeenOrder (ds : List String) : List String :=
  ds.foldl seenInsert []

/-- First non-empty string of a list, or the empty string; describes the
outcome of repeated empty-only backfill of a string field. -/
def firstNonemptyString : List String → String
  | [] => ""
  | s :: rest => if s = "" then firstNonemptyString rest else s

/-- First non-empty list of a list of lists, or the empty list; describes the
outcome of repeated empty-only backfill of the authors field. -/
def firstNonemptyAuthors : List (List String) → List String
  | [] => []
  | a :: rest => if a = [] then firstNonemptyAuthors rest else a

/-- Specification-side description of the record merge_citations holds for a
doi after processing the first record g and then the later records gs bearing
that doi, in order: each field is the first non-empty value offered, and the
source tag is the first record's. -/
def mergedRecord (d : String) (g : Citation) (gs : List Citation) : Citation :=
  { doi := d,
    title := firstNonemptyString (g.title :: gs.map (fun r => r.title)),
    authors := firstNonemptyAuthors (g.authors :: gs.map (fun r => r.authors)),
    year := firstNonemptyString (g.year :: gs.map (fun r => r.year)),
    source := g.source }

/-- Outcome of one HTTP attempt as seen by make_request: a response with a
status code and (for status 200) an optional decoded JSON body, where none
marks a body on which response.json() raises; or a timeout; or a transport
error; or any other exception.  The payload is abstracted as a Nat. -/
inductive HttpResult where
  | response (code : Nat) (body : Option Nat)
  | timeout
  | requestError
  | otherError
deriving DecidableEq, Repr

/-- Trace of one make_request run: the returned value, the number of
attempts consumed and the sleeps performed, in seconds, in order. -/
structure FetchTrace where
  result : Option Nat
  attempts : Nat
  sleeps : List Nat
deriving DecidableEq, Repr

/-- Record one more attempt that ended in a sleep of s seconds. -/
def sleepCons (s : Nat) (t : FetchTrace) : FetchTrace :=
  { result := t.result, attempts := t.attempts + 1, sleeps := s :: t.sleeps }

/-- Retry loop of make_request over an environment giving the outcome of
each attempt: status 200 with a decodable body returns it; a 200 body that
fails to decode is caught and retried after a one-second sleep; 404 returns
none at once; 429 sleeps (attempt+1)*5 seconds and retries; any other
status, a transport error or an unexpected exception sleeps one second and
retries; a timeout sleeps two seconds and retries; an exhausted budget
returns none. -/
def make_request_go (env : Nat → HttpResult) : Nat → Nat → FetchTrace
  | _, 0 => { result := none, attempts := 0, sleeps := [] }
  | a, n + 1 =>
    match env a with
    | .response code body =>
      if code = 200 then
        match body with
        | some b => { result := some b, attempts := 1, sleeps := [] }
        | none => sleepCons 1 (make_request_go env (a + 1) n)
      else if code = 404 then { result := none, attempts := 1, sleeps := [] }
      else if code = 429 then sleepCons ((a + 1) * 5) (make_request_go env (a + 1) n)
      else sleepCons 1 (make_request_go env (a + 1) n)
    | .timeout => sleepCons 2 (make_request_go env (a + 1) n)
    | .requestError => sleepCons 1 (make_request_go env (a + 1) n)
    | .otherError => sleepCons 1 (make_request_go env (a + 1) n)

/-- Default retry budget of make_request. -/
def RETRY_COUNT : Nat := 3

/-- Model of make_request: run the retry loop from attempt zero and return
its result. -/
def make_request (env : Nat → HttpResult) (retry : Nat := RETRY_COUNT) : Option Nat :=
  (make_request_go env 0 retry).result

/-- Attempt outcomes on which the Python loop returns without retrying: a
200 response whose body decodes, or a 404 response. -/
def isTerminalResult : HttpResult → Bool
  | .response 200 (some _) => true
  | .response 404 _ => true
  | _ => false

/-- One citing work of an OpenAlex page, reduced to the fields the adapter
selects: raw doi, title, author display names of the authorships and the
publication year (none models JSON null). -/
structure OpenAlexWork where
  doi : String
  title : String
  authorships : List String
  publication_year : Option Nat
deriving DecidableEq, Repr

/-- One page of the OpenAlex citing-works search: the result batch and the
cursor of the next page (none models a null or absent next_cursor). -/
structure OpenAlexPage where
  results : List OpenAlexWork
  next_cursor : Option String
deriving DecidableEq, Repr

/-- Initial work lookup of the OpenAlex adapter: internal id and citation
count. -/
structure OpenAlexWorkData where
  id : String
  cited_by_count : Nat
deriving DecidableEq, Repr

/-- Model of extract_authors_from_openalex: keep the non-empty display
names, in order. -/
def extract_authors_from_openalex (authorships : List String) : List String :=
  authorships.filter (fun n => n ≠ "")

/-- Per-page record extraction of the OpenAlex adapter: works with an empty
raw doi or a doi that fails normalization are dropped; the year is the
decimal rendering of publication_year unless it is null or zero. -/
def openalexRecordsOfPage (works : List OpenAlexWork) : List Citation :=
  works.filterMap (fun w =>
    if w.doi = "" then none
    else
      match normalize_doi w.doi with
      | none => none
      | some cd =>
        some { doi := cd, title := w.title,
               authors := extract_authors_from_openalex w.authorships,
               year := match w.publication_year with
                       | some y => if y ≠ 0 then toString y else ""
                       | none => "",
               source := "OpenAlex" })

/-- Truthiness of the cursor variable of the pagination loop: null and the
empty string are falsy. -/
def cursorTruthy : Option String → Bool
  | none => false
  | some s => s ≠ ""

/-- Hard page cap of the OpenAlex pagination loop. -/
def OPENALEX_MAX_PAGES : Nat := 50

/-- Pagination loop of get_citations_from_openalex over an environment
giving each page request's outcome (none models a null response or a
response without a results key, on which the loop breaks).  The fuel
argument is the number of pages the cap still allows, exactly the guard
page_count < max_pages of the while loop; the second component counts the
page requests issued. -/
def openalex_page_loop (env : Nat → Option OpenAlexPage) :
    Nat → Nat → Option String → List Citation → List Citation × Nat
  | 0, _, _, acc => (acc, 0)
  | fuel + 1, idx, cursor, acc =>
    if cursorTruthy cursor then
      match env idx with
      | none => (acc, 1)
      | some page =>
        let r := openalex_page_loop env fuel (idx + 1) page.next_cursor
                   (acc ++ openalexRecordsOfPage page.results)
        (r.1, r.2 + 1)
    else (acc, 0)

/-- Model of get_citations_from_openalex: a failed work lookup or a zero
citation count yields no records, otherwise the pagination loop runs with
the initial cursor, the asterisk string, and the page cap. -/
def get_citations_from_openalex (workData : Option OpenAlexWorkData)
    (env : Nat → Option OpenAlexPage) : List Citation :=
  match workData with
  | none => []
  | some wd =>
    if wd.cited_by_count = 0 then []
    else (openalex_page_loop env OPENALEX_MAX_PAGES 0 (some "*") []).1

/-- Record needs enrichment when any of title, authors or year is empty,
the guard of enrich_citation_metadata. -/
def needsEnrichment (c : Citation) : Bool :=
  c.title == "" || decide (c.authors = []) || c.year == ""

/-- Backfill of one record from a Crossref lookup result (title, authors,
year): each field is filled only when the looked-up value is non-empty and
the record's value is empty.  A failed lookup is modelled by empty values,
which the truthiness tests of the code cannot tell apart from a lookup
returning nothing. -/
def applyCrossref (c : Citation) (m : String × List String × String) : Citation :=
  { c with
    title := if m.1 ≠ "" ∧ c.title = "" then m.1 else c.title,
    authors := if m.2.1 ≠ [] ∧ c.authors = [] then m.2.1 else c.authors,
    year := if m.2.2 ≠ "" ∧ c.year = "" then m.2.2 else c.year }

/-- Model of enrich_citation_metadata over an explicit Crossref lookup
environment: each record missing a field is backfilled from the lookup of
its doi; the second component records the dois actually looked up, in
order.  The progress callback has no effect on data and is omitted. -/
def enrich_citation_metadata (lookup : String → String × List String × String) :
    List Citation → List Citation × List String
  | [] => ([], [])
  | c :: cs =>
    let rest := enrich_citation_metadata lookup cs
    if needsEnrichment c then
      (applyCrossref c (lookup c.doi) :: rest.1, c.doi :: rest.2)
    else (c :: rest.1, rest.2)

/-- Outcome of processing one queried identifier in the orchestrator loop:
a computed citation list, an exception caught by the per-identifier handler,
or an operator interrupt. -/
inductive ProcessOutcome where
  | ok (citations : List Citation)
  | failure
  | interrupted
deriving DecidableEq, Repr

/-- Insertion into the insertion-ordered result mapping of main. -/
def odInsert (m : List (String × List Citation)) (k : String) (v : List Citation) :
    List (String × List Citation) :=
  if m.any (fun p => p.1 == k) then
    m.map (fun p => if p.1 == k then (k, v) else p)
  else m ++ [(k, v)]

/-- Orchestrator loop of main over an environment giving each identifier's
processing outcome: a success records its citations, a caught failure
records an empty list and processing continues, an interrupt stops the loop
keeping the results accumulated so far. -/
def main_loop (env : String → ProcessOutcome) :
    List String → List (String × List Citation) → List (String × List Citation)
  | [], results => results
  | d :: ds, results =>
    match env d with
    | .ok cs => main_loop env ds (odInsert results d cs)
    | .failure => main_loop env ds (odInsert results d [])
    | .interrupted => results

/-- Result mapping produced by the orchestrator for a list of queried
identifiers. -/
def main_results (env : String → ProcessOutcome) (dois : List String) :
    List (String × List Citation) :=
  main_loop env dois []

/-- Python str.splitlines restricted to line feeds: split at every line
feed, with no empty trailing line for a text ending in a line feed. -/
def splitLinesGo : List Char → List (List Char)
  | [] => [[]]
  | c :: rest =>
    if c.toNat = 10 then [] :: splitLinesGo rest
    else
      match splitLinesGo rest with
      | line :: lines => (c :: line) :: lines
      | [] => [[c]]

/-- Python str.splitlines (line-feed fragment). -/
def splitlines (l : List Char) : List (List Char) :=
  if l.isEmpty then []
  else if l.getLast? = some '\n' then (splitLinesGo l).dropLast
  else splitLinesGo l

/-- Per-line step of read_dois_from_crossref_depositor_report: strip the
line; drop it when empty; drop it when its uppercased text starts with DOI
(the header test of the code); otherwise normalize the first
whitespace-delimited column, dropping the line when normalization fails. -/
def processDepositorLine (l : List Char) : Option String :=
  let line := pyStrip l
  if line.isEmpty then none
  else if ("DOI".data).isPrefixOf (line.map pyUpper) then none
  else normalize_doi (String.mk (line.takeWhile (fun c => !(isPySpace c))))

/-- Model of read_dois_from_crossref_depositor_report over the fetched
report text (none models a null response; the empty string is falsy too):
collect the identifiers contributed by each line, in order, without
deduplication. -/
def read_dois_from_crossref_depositor_report (text : Option String) : List String :=
  match text with
  | none => []
  | some t =>
    if t = "" then []
    else (splitlines t.data).filterMap processDepositorLine


/-- Concrete OpenAlex-side record used by the merge witness. -/
def wRecA : Citation :=
  { doi := "10.1000/a", title := "X", authors := ["A"], year := "", source := "OpenAlex" }

/-- Concrete OpenCitations-side record used by the merge witness. -/
def wRecB : Citation :=
  { doi := "10.1000/a", title := "Y", authors := [], year := "2001",
    source := "OpenCitations" }

/-- Concrete fetch environment in which every attempt returns HTTP 404. -/
def wFetchEnv404 : Nat → HttpResult := fun _ => HttpResult.response 404 none

/-- Concrete fetch environment in which every attempt times out. -/
def wFetchEnvTimeout : Nat → HttpResult := fun _ => HttpResult.timeout

/-- Concrete fetch environment: a 429 on the first attempt, then HTTP 200
with body 7. -/
def wFetchEnv429 : Nat → HttpResult :=
  fun i => if i = 0 then HttpResult.response 429 none else HttpResult.response 200 (some 7)

/-- Concrete page environment whose every response carries a live cursor. -/
def wPagesAlways : Nat → Option OpenAlexPage :=
  fun _ => some { results := [], next_cursor := some "*" }

/-- Concrete Crossref lookup environment used by the enrichment witness. -/
def wLookup : String → String × List String × String :=
  fun _ => ("T", ["A"], "1999")

/-- Concrete record list used by the enrichment witness: one complete
record and one missing its title and year. -/
def wEnrichList : List Citation :=
  [{ doi := "10.1/a", title := "K", authors := ["B"], year := "2000", source := "s" },
   { doi := "10.1/b", title := "", authors := ["B"], year := "", source := "s" }]

/-- Concrete orchestrator environment: the first identifier fails, all
others succeed with an empty citation list. -/
def wOrchEnv : String → ProcessOutcome :=
  fun d => if d = "10.1/a" then ProcessOutcome.failure else ProcessOutcome.ok []

-- ### Character-level lemmas

theorem toNat_charOfNat {n : Nat} (h : n < 55296) : (Char.ofNat n).toNat = n := by
  have hv : n.isValidChar := Or.inl h
  simp [Char.ofNat, hv, Char.ofNatAux, Char.toNat, UInt32.toNat]

theorem char_toNat_inj {a b : Char} (h : a.toNat = b.toNat) : a = b :=
  Char.eq_of_val_eq (UInt32.toNat.inj h)

theorem bool_eq_of_iff {a b : Bool} (h : a = true ↔ b = true) : a = b := by
  cases a <;> cases b <;> simp_all

theorem pyLower_toNat (c : Char) :
    (pyLower c).toNat = if 65 ≤ c.toNat ∧ c.toNat ≤ 90 then c.toNat + 32 else c.toNat := by
  unfold pyLower
  split
  · next hc => exact toNat_charOfNat (by omega)
  · rfl

theorem pyLower_not_upper (c : Char) :
    ¬ (65 ≤ (pyLower c).toNat ∧ (pyLower c).toNat ≤ 90) := by
  have h := pyLower_toNat c
  split at h <;> omega

theorem pyLower_pyLower (c : Char) : pyLower (pyLower c) = pyLower c := by
  have h := pyLower_not_upper c
  conv_lhs => rw [pyLower]
  rw [if_neg h]

theorem map_pyLower_idem (l : List Char) :
    (l.map pyLower).map pyLower = l.map pyLower := by
  rw [List.map_map]
  exact List.map_congr_left (fun c _ => pyLower_pyLower c)

theorem isPySpace_iff (c : Char) :
    isPySpace c = true ↔
      (c.toNat = 32 ∨ c.toNat = 9 ∨ c.toNat = 10 ∨ c.toNat = 13 ∨
       c.toNat = 11 ∨ c.toNat = 12) := by
  simp [isPySpace]
  omega

theorem isPySpace_pyLower (c : Char) : isPySpace (pyLower c) = isPySpace c := by
  apply bool_eq_of_iff
  rw [isPySpace_iff, isPySpace_iff]
  have h := pyLower_toNat c
  split at h <;> omega

theorem isAsciiDigit_iff (c : Char) :
    isAsciiDigit c = true ↔ (48 ≤ c.toNat ∧ c.toNat ≤ 57) := by
  simp [isAsciiDigit]

theorem isAsciiDigit_pyLower (c : Char) : isAsciiDigit (pyLower c) = isAsciiDigit c := by
  apply bool_eq_of_iff
  rw [isAsciiDigit_iff, isAsciiDigit_iff]
  have h := pyLower_toNat c
  split at h <;> omega

theorem pyLower_toNat_eq_10_iff (c : Char) : (pyLower c).toNat = 10 ↔ c.toNat = 10 := by
  have h := pyLower_toNat c
  split at h <;> omega

theorem list_all_congr {α : Type} {xs : List α} {p q : α → Bool}
    (hpq : ∀ x ∈ xs, p x = q x) : xs.all p = xs.all q := by
  induction xs with
  | nil => rfl
  | cons y ys ih =>
    have hy := hpq y (List.mem_cons_self y ys)
    have hrec := ih (fun z hz => hpq z (List.mem_cons_of_mem y hz))
    simp only [List.all_cons, hy, hrec]

theorem noNewlineChars_map_pyLower (l : List Char) :
    noNewlineChars (l.map pyLower) = noNewlineChars l := by
  unfold noNewlineChars
  rw [List.all_map]
  apply list_all_congr
  intro c _
  apply bool_eq_of_iff
  simp only [Function.comp_apply, bne_iff_ne, ne_eq]
  rw [not_iff_not]
  exact pyLower_toNat_eq_10_iff c

-- ### pyStrip lemmas

theorem dropWhile_idem {α : Type} (p : α → Bool) :
    ∀ l : List α, (l.dropWhile p).dropWhile p = l.dropWhile p
  | [] => rfl
  | c :: t => by
    by_cases h : p c
    · simp only [List.dropWhile_cons, h, if_true]
      exact dropWhile_idem p t
    · simp only [List.dropWhile_cons, h, if_false]
      simp [List.dropWhile_cons, h]

theorem getLast?_dropWhile {α : Type} (p : α → Bool) :
    ∀ l : List α, l.dropWhile p ≠ [] → (l.dropWhile p).getLast? = l.getLast?
  | [] => by simp
  | c :: t => by
    intro hne
    by_cases h : p c
    · rw [List.dropWhile_cons, if_pos h] at hne ⊢
      have ht : t ≠ [] := by
        rintro rfl
        simp at hne
      rcases t with _ | ⟨a, t2⟩
      · exact absurd rfl ht
      · rw [List.getLast?_cons_cons]
        exact getLast?_dropWhile p (a :: t2) hne
    · rw [List.dropWhile_cons, if_neg h]

theorem dropWhile_eq_self_of_head {α : Type} (p : α → Bool) (l : List α)
    (h : ∀ c, l.head? = some c → p c = false) : l.dropWhile p = l := by
  rcases l with _ | ⟨c, t⟩
  · rfl
  · rw [List.dropWhile_cons, if_neg]
    rw [h c rfl]
    simp

theorem head?_dropWhile_false {α : Type} (p : α → Bool) (l : List α) (c : α)
    (h : (l.dropWhile p).head? = some c) : p c = false := by
  have := List.head?_dropWhile_not p l
  rw [h] at this
  exact this

theorem dropWhile_pyStrip (l : List Char) :
    (pyStrip l).dropWhile isPySpace = pyStrip l := by
  apply dropWhile_eq_self_of_head
  intro c hc
  show isPySpace c = false
  have h1 : pyStrip l =
      ((l.dropWhile isPySpace).reverse.dropWhile isPySpace).reverse := rfl
  rw [h1, List.head?_reverse] at hc
  have hw : (l.dropWhile isPySpace).reverse.dropWhile isPySpace ≠ [] := by
    rintro he
    rw [he] at hc
    simp at hc
  rw [getLast?_dropWhile isPySpace _ hw, List.getLast?_reverse] at hc
  exact head?_dropWhile_false isPySpace l c hc

theorem pyStrip_idem (l : List Char) : pyStrip (pyStrip l) = pyStrip l := by
  have h1 := dropWhile_pyStrip l
  show (((pyStrip l).dropWhile isPySpace).reverse.dropWhile isPySpace).reverse = pyStrip l
  rw [h1]
  show ((((l.dropWhile isPySpace).reverse.dropWhile isPySpace).reverse).reverse.dropWhile
    isPySpace).reverse = pyStrip l
  rw [List.reverse_reverse, dropWhile_idem]
  rfl

theorem pyStrip_map_pyLower (l : List Char) :
    pyStrip (l.map pyLower) = (pyStrip l).map pyLower := by
  have hp : (isPySpace ∘ pyLower) = isPySpace := funext isPySpace_pyLower
  unfold pyStrip
  rw [List.dropWhile_map, hp, ← List.map_reverse, List.dropWhile_map, hp, List.map_reverse]

-- ### unquote lemma

theorem unquote_eq_self : ∀ l : List Char, hasPercentEscape l = false → unquote l = l
  | [] => fun _ => rfl
  | [c] => fun _ => rfl
  | [c, a] => fun _ => rfl
  | c :: a :: b :: rest => by
    intro h
    unfold hasPercentEscape at h
    unfold unquote
    by_cases hc : c.toNat = 37 ∧ isHexChar a = true ∧ isHexChar b = true
    · rw [if_pos hc] at h
      exact absurd h (by simp)
    · rw [if_neg hc] at h
      rw [if_neg hc, unquote_eq_self (a :: b :: rest) h]

-- ### DOI pattern lemmas

theorem pyLower_toNat_of_eq {c : Char} {n : Nat} (hn : n < 65 ∨ 90 < n)
    (h : c.toNat = n) : (pyLower c).toNat = n := by
  have h2 := pyLower_toNat c
  split at h2 <;> omega

theorem suffixMatches_map_pyLower (l : List Char)
    (h : suffixMatchesDotPlusEnd l = true) :
    suffixMatchesDotPlusEnd (l.map pyLower) = true := by
  unfold suffixMatchesDotPlusEnd at h ⊢
  rw [List.getLast?_map]
  rcases hg : l.getLast? with _ | c
  · rw [hg] at h
    simp at h
  · rw [hg] at h
    have h' : (if c.toNat = 10 then !(l.dropLast.isEmpty) && noNewlineChars l.dropLast
        else noNewlineChars l) = true := h
    show (if (pyLower c).toNat = 10 then
        !((l.map pyLower).dropLast.isEmpty) && noNewlineChars (l.map pyLower).dropLast
        else noNewlineChars (l.map pyLower)) = true
    by_cases hc : c.toNat = 10
    · rw [if_pos hc] at h'
      rw [if_pos ((pyLower_toNat_eq_10_iff c).mpr hc)]
      rw [← List.map_dropLast, noNewlineChars_map_pyLower]
      rcases hd : List.dropLast l with _ | ⟨d, t⟩
      · rw [hd] at h'
        simp at h'
      · rw [hd] at h'
        simpa using h'
    · rw [if_neg hc] at h'
      rw [if_neg (fun hx => hc ((pyLower_toNat_eq_10_iff c).mp hx))]
      rw [noNewlineChars_map_pyLower]
      exact h'

theorem matchesDoiPattern_shape (l : List Char) (h : matchesDoiPattern l = true) :
    ∃ c1 c2 c3 rest, l = c1 :: c2 :: c3 :: rest ∧
      c1.toNat = 49 ∧ c2.toNat = 48 ∧ c3.toNat = 46 := by
  rcases l with _ | ⟨c1, _ | ⟨c2, _ | ⟨c3, rest⟩⟩⟩
  · simp [matchesDoiPattern] at h
  · simp [matchesDoiPattern] at h
  · simp [matchesDoiPattern] at h
  · refine ⟨c1, c2, c3, rest, rfl, ?_, ?_, ?_⟩ <;>
    · simp only [matchesDoiPattern, Bool.and_eq_true, beq_iff_eq] at h
      tauto

theorem matchesDoiPattern_map_pyLower (l : List Char)
    (h : matchesDoiPattern l = true) :
    matchesDoiPattern (l.map pyLower) = true := by
  rcases matchesDoiPattern_shape l h with ⟨c1, c2, c3, rest, rfl, h1, h2, h3⟩
  have hd : (isAsciiDigit ∘ pyLower) = isAsciiDigit := funext isAsciiDigit_pyLower
  simp only [matchesDoiPattern, Bool.and_eq_true, beq_iff_eq, decide_eq_true_eq] at h
  obtain ⟨⟨⟨⟨_, _⟩, _⟩, hlen⟩, hrest⟩ := h
  rcases hdrop : List.dropWhile isAsciiDigit rest with _ | ⟨c4, suffix⟩
  · rw [hdrop] at hrest
    simp at hrest
  · rw [hdrop] at hrest
    simp only [Bool.and_eq_true, beq_iff_eq] at hrest
    obtain ⟨h47, hsuf⟩ := hrest
    simp only [List.map_cons, matchesDoiPattern, Bool.and_eq_true, beq_iff_eq,
      decide_eq_true_eq]
    constructor
    · constructor
      · constructor
        · constructor
          · exact pyLower_toNat_of_eq (by omega) (by assumption)
          · exact pyLower_toNat_of_eq (by omega) (by assumption)
        · exact pyLower_toNat_of_eq (by omega) (by assumption)
      · rw [List.takeWhile_map, hd, List.length_map]
        exact hlen
    · rw [List.dropWhile_map, hd, hdrop]
      simp only [List.map_cons, Bool.and_eq_true, beq_iff_eq]
      constructor
      · exact pyLower_toNat_of_eq (by omega) h47
      · exact suffixMatches_map_pyLower suffix hsuf

theorem isPrefixOf_false_of_head {a b : Char} (as bs : List Char)
    (h : a.toNat ≠ b.toNat) : (a :: as).isPrefixOf (b :: bs) = false := by
  rw [List.isPrefixOf_cons₂]
  have : (a == b) = false := by
    apply beq_eq_false_iff_ne.mpr
    intro he
    exact h (congrArg Char.toNat he)
  rw [this]
  simp

theorem stripDoiScheme_of_head49 (c : Char) (t : List Char) (hc : c.toNat = 49) :
    stripDoiScheme (c :: t) = c :: t := by
  have hc' : (pyLower c).toNat = 49 := pyLower_toNat_of_eq (by omega) hc
  unfold stripDoiScheme
  have e1 : "https://doi.org/".data = 'h' :: "ttps://doi.org/".data := rfl
  have e2 : "http://doi.org/".data = 'h' :: "ttp://doi.org/".data := rfl
  have e3 : "https://dx.doi.org/".data = 'h' :: "ttps://dx.doi.org/".data := rfl
  have e4 : "http://dx.doi.org/".data = 'h' :: "ttp://dx.doi.org/".data := rfl
  have e5 : "doi:".data = 'd' :: "oi:".data := rfl
  have hmap : (c :: t).map pyLower = pyLower c :: t.map pyLower := rfl
  have hne : ∀ (a : Char) (as : List Char), a.toNat ≠ (pyLower c).toNat →
      ¬ ((a :: as).isPrefixOf (pyLower c :: t.map pyLower) = true) := by
    intro a as ha
    rw [isPrefixOf_false_of_head _ _ ha]
    simp
  have hfind : doiPrefixes.find?
      (fun p => p.isPrefixOf ((c :: t).map pyLower)) = none := by
    rw [hmap]
    show List.find? _ [_, _, _, _, _] = none
    rw [List.find?_cons_of_neg, List.find?_cons_of_neg, List.find?_cons_of_neg,
        List.find?_cons_of_neg, List.find?_cons_of_neg, List.find?_eq_none.mpr]
    · simp
    · rw [e5]; exact hne _ _ (by rw [hc']; decide)
    · rw [e4]; exact hne _ _ (by rw [hc']; decide)
    · rw [e3]; exact hne _ _ (by rw [hc']; decide)
    · rw [e2]; exact hne _ _ (by rw [hc']; decide)
    · rw [e1]; exact hne _ _ (by rw [hc']; decide)
  rw [hfind]

-- ### normalize_doi fixpoint lemma and the normalization claims

theorem normalize_doi_fixpoint (w : List Char)
    (hm : matchesDoiPattern (pyStrip w) = true)
    (hesc : hasPercentEscape ((pyStrip w).map pyLower) = false) :
    normalize_doi (String.mk ((pyStrip w).map pyLower)) =
      some (String.mk ((pyStrip w).map pyLower)) := by
  obtain ⟨c1, c2, c3, rest, he, h1, h2, h3⟩ := matchesDoiPattern_shape _ hm
  have hydata : (String.mk ((pyStrip w).map pyLower)).data = (pyStrip w).map pyLower := rfl
  have hne : String.mk ((pyStrip w).map pyLower) ≠ "" := by
    intro h0
    have hd : (String.mk ((pyStrip w).map pyLower)).data = [] := by
      rw [h0]
    rw [hydata, he] at hd
    simp at hd
  have hunq : unquote ((pyStrip w).map pyLower) = (pyStrip w).map pyLower :=
    unquote_eq_self _ hesc
  have hstrip1 : pyStrip ((pyStrip w).map pyLower) = (pyStrip w).map pyLower := by
    rw [pyStrip_map_pyLower, pyStrip_idem]
  have hscheme : stripDoiScheme ((pyStrip w).map pyLower) = (pyStrip w).map pyLower := by
    rw [he]
    show stripDoiScheme (pyLower c1 :: (c2 :: c3 :: rest).map pyLower) = _
    exact stripDoiScheme_of_head49 _ _ (pyLower_toNat_of_eq (by omega) h1)
  have hm2 : matchesDoiPattern ((pyStrip w).map pyLower) = true :=
    matchesDoiPattern_map_pyLower _ hm
  unfold normalize_doi
  rw [if_neg hne, hydata, hunq, hstrip1, hscheme, hstrip1, hm2]
  rw [if_pos rfl, map_pyLower_idem]

/-- C3 (amended): normalize_doi is idempotent on every input it accepts
whose canonical result contains no decodable percent-escape; for such an
input x with normalize_doi x = some y, normalizing y returns y unchanged.
(As literally stated the claim fails, because the percent-decoding step can
decode again on the second pass; see the counterexample.) -/
theorem normalize_doi_idempotent_on_escape_free (x y : String)
    (h : normalize_doi x = some y) (hesc : hasPercentEscape y.data = false) :
    normalize_doi y = some y := by
  unfold normalize_doi at h
  by_cases hx : x = ""
  · rw [if_pos hx] at h
    cases h
  · rw [if_neg hx] at h
    by_cases hm :
        matchesDoiPattern (pyStrip (stripDoiScheme (pyStrip (unquote x.data)))) = true
    · rw [if_pos hm] at h
      have hy : y =
          String.mk ((pyStrip (stripDoiScheme (pyStrip (unquote x.data)))).map pyLower) :=
        (Option.some.inj h).symm
      rw [hy] at hesc ⊢
      exact normalize_doi_fixpoint _ hm hesc
    · rw [if_neg hm] at h
      cases h

/-- C3 counterexample: the input 10.1234/a%252fb normalizes successfully to
10.1234/a%2fb, but normalizing that canonical value decodes the remaining
escape and returns 10.1234/a/b, so normalize_doi applied twice differs from
normalize_doi applied once on an input on which it succeeds. -/
theorem normalize_doi_not_idempotent :
    normalize_doi "10.1234/a%252fb" = some "10.1234/a%2fb" ∧
    normalize_doi "10.1234/a%2fb" = some "10.1234/a/b" ∧
    normalize_doi "10.1234/a%2fb" ≠ some "10.1234/a%2fb" :=
  ⟨by decide, by decide, by decide⟩

/-- Witness for C3: a concrete successful, escape-free normalization on
which the amended idempotence theorem applies. -/
theorem normalize_doi_idempotent_witness :
    normalize_doi "DOI:10.1234/AbC" = some "10.1234/abc" ∧
    hasPercentEscape ("10.1234/abc".data) = false ∧
    normalize_doi "10.1234/abc" = some "10.1234/abc" :=
  ⟨by decide, by decide,
    normalize_doi_idempotent_on_escape_free "DOI:10.1234/AbC" "10.1234/abc"
      (by decide) (by decide)⟩

/-- C4 counterexample: the three example inputs of the claim use the
registrant 10.1, whose digit run is shorter than the four digits the
validation pattern of normalize_doi requires, so all three are rejected and
yield no canonical form at all. -/
theorem normalize_doi_spec_examples_invalid :
    normalize_doi "https://doi.org/10.1/AbC" = none ∧
    normalize_doi "DOI:10.1/AbC" = none ∧
    normalize_doi "10.1/abc" = none :=
  ⟨by decide, by decide, by decide⟩

/-- C4 (amended): with a registrant long enough for the validation pattern
(10.1000 instead of 10.1), normalization is prefix- and case-insensitive:
the https prefix form, the DOI: prefix form and the bare lowercase form all
yield the same canonical value, which is fully lowercase. -/
theorem normalize_doi_prefix_case_insensitive :
    normalize_doi "https://doi.org/10.1000/AbC" = some "10.1000/abc" ∧
    normalize_doi "DOI:10.1000/AbC" = some "10.1000/abc" ∧
    normalize_doi "10.1000/abc" = some "10.1000/abc" ∧
    ("10.1000/abc".data).all (fun c => pyLower c == c) = true :=
  ⟨by decide, by decide, by decide, by decide⟩

-- ### Merge/dedup lemmas

theorem mem_seenInsert (acc : List String) (d x : String) :
    x ∈ seenInsert acc d ↔ x ∈ acc ∨ x = d := by
  unfold seenInsert
  split
  · next h =>
    have hd : d ∈ acc := by simpa using h
    constructor
    · exact fun hx => Or.inl hx
    · rintro (hx | rfl)
      · exact hx
      · exact hd
  · simp

theorem mem_foldl_seenInsert (ds : List String) :
    ∀ (acc : List String) (x : String),
      x ∈ ds.foldl seenInsert acc ↔ x ∈ acc ∨ x ∈ ds := by
  induction ds with
  | nil => simp
  | cons d t ih =>
    intro acc x
    rw [List.foldl_cons, ih, mem_seenInsert]
    simp
    tauto

theorem mem_firstSeenOrder (ds : List String) (x : String) :
    x ∈ firstSeenOrder ds ↔ x ∈ ds := by
  unfold firstSeenOrder
  rw [mem_foldl_seenInsert]
  simp

theorem nodup_foldl_seenInsert (ds : List String) :
    ∀ acc : List String, acc.Nodup → (ds.foldl seenInsert acc).Nodup := by
  induction ds with
  | nil => exact fun acc h => h
  | cons d t ih =>
    intro acc hacc
    rw [List.foldl_cons]
    apply ih
    unfold seenInsert
    split
    · exact hacc
    · next h =>
      have hd : d ∉ acc := by simpa using h
      simp [List.nodup_append, hacc, hd]

theorem nodup_firstSeenOrder (ds : List String) : (firstSeenOrder ds).Nodup :=
  nodup_foldl_seenInsert ds [] (by simp)

theorem firstSeenOrder_append_one (ds : List String) (d : String) :
    firstSeenOrder (ds ++ [d]) = seenInsert (firstSeenOrder ds) d := by
  unfold firstSeenOrder
  rw [List.foldl_append]
  rfl

theorem firstNonemptyString_append_one (ts : List String) (t : String) :
    firstNonemptyString (ts ++ [t]) =
      if firstNonemptyString ts = "" ∧ t ≠ "" then t else firstNonemptyString ts := by
  induction ts with
  | nil =>
    show firstNonemptyString [t] = _
    unfold firstNonemptyString
    by_cases h : t = "" <;> simp [h, firstNonemptyString]
  | cons s rest ih =>
    show firstNonemptyString (s :: (rest ++ [t])) = _
    unfold firstNonemptyString
    by_cases hs : s = ""
    · simp only [hs, if_true, if_pos rfl]
      exact ih
    · simp [hs]

theorem firstNonemptyAuthors_append_one (ts : List (List String)) (t : List String) :
    firstNonemptyAuthors (ts ++ [t]) =
      if firstNonemptyAuthors ts = [] ∧ t ≠ [] then t else firstNonemptyAuthors ts := by
  induction ts with
  | nil =>
    show firstNonemptyAuthors [t] = _
    unfold firstNonemptyAuthors
    by_cases h : t = [] <;> simp [h, firstNonemptyAuthors]
  | cons s rest ih =>
    show firstNonemptyAuthors (s :: (rest ++ [t])) = _
    unfold firstNonemptyAuthors
    by_cases hs : s = []
    · simp only [hs, if_true, if_pos rfl]
      exact ih
    · simp [hs]

theorem firstNonemptyString_cons_append (x : String) (ts : List String) (t : String) :
    firstNonemptyString (x :: (ts ++ [t])) =
      if firstNonemptyString (x :: ts) = "" ∧ t ≠ "" then t
      else firstNonemptyString (x :: ts) := by
  rw [show x :: (ts ++ [t]) = (x :: ts) ++ [t] from rfl, firstNonemptyString_append_one]

theorem firstNonemptyAuthors_cons_append (x : List String) (ts : List (List String))
    (t : List String) :
    firstNonemptyAuthors (x :: (ts ++ [t])) =
      if firstNonemptyAuthors (x :: ts) = [] ∧ t ≠ [] then t
      else firstNonemptyAuthors (x :: ts) := by
  rw [show x :: (ts ++ [t]) = (x :: ts) ++ [t] from rfl, firstNonemptyAuthors_append_one]

theorem backfill_mergedRecord (d : String) (g : Citation) (gs : List Citation)
    (c : Citation) :
    backfillRecord (mergedRecord d g gs) c = mergedRecord d g (gs ++ [c]) := by
  unfold backfillRecord mergedRecord
  simp only [List.map_append, List.map_cons, List.map_nil,
    firstNonemptyString_cons_append, firstNonemptyAuthors_cons_append]

theorem mergedRecord_single (d : String) (c : Citation) (h : c.doi = d) :
    mergedRecord d c [] = c := by
  rcases c with ⟨cd, ct, ca, cy, cs⟩
  simp only [Citation.doi] at h
  subst h
  unfold mergedRecord
  simp only [List.map_nil, Citation.mk.injEq]
  by_cases h1 : ct = "" <;> by_cases h2 : ca = [] <;> by_cases h3 : cy = "" <;>
    simp [h1, h2, h3, firstNonemptyString, firstNonemptyAuthors]

theorem find?_doi_map_update (m : List Citation) (c : Citation) (d : String) :
    (m.map (fun r => if r.doi == c.doi then backfillRecord r c else r)).find?
        (fun r => r.doi == d) =
      (m.find? (fun r => r.doi == d)).map
        (fun r => if r.doi == c.doi then backfillRecord r c else r) := by
  rw [List.find?_map]
  have hpq : ((fun r => r.doi == d) ∘
      fun r => if r.doi == c.doi then backfillRecord r c else r) =
      (fun r => r.doi == d) := by
    funext r
    show ((if r.doi == c.doi then backfillRecord r c else r).doi == d) = (r.doi == d)
    split <;> rfl
  rw [hpq]

theorem merge_loop_invariant (l : List Citation) :
    ((l.foldl add_to_merged []).map (fun r => r.doi) =
      firstSeenOrder (l.map (fun r => r.doi))) ∧
    (∀ d g gs, l.filter (fun r => r.doi == d) = g :: gs →
      (l.foldl add_to_merged []).find? (fun r => r.doi == d) =
        some (mergedRecord d g gs)) := by
  induction l using List.reverseRecOn with
  | nil =>
    constructor
    · rfl
    · intro d g gs h
      simp at h
  | append_singleton l c ih =>
    obtain ⟨ihA, ihC⟩ := ih
    rw [List.foldl_append]
    simp only [List.foldl_cons, List.foldl_nil]
    by_cases hc : l.foldl add_to_merged [] |>.any (fun r => r.doi == c.doi)
    · -- the doi is already present: in-place backfill
      have hadd : add_to_merged (l.foldl add_to_merged []) c =
          (l.foldl add_to_merged []).map
            (fun r => if r.doi == c.doi then backfillRecord r c else r) := by
        rw [add_to_merged, if_pos hc]
      have hdois : (add_to_merged (l.foldl add_to_merged []) c).map (fun r => r.doi) =
          (l.foldl add_to_merged []).map (fun r => r.doi) := by
        rw [hadd, List.map_map]
        apply List.map_congr_left
        intro r _
        show (if r.doi == c.doi then backfillRecord r c else r).doi = r.doi
        split <;> rfl
      have hmem : c.doi ∈ firstSeenOrder (l.map (fun r => r.doi)) := by
        rw [← ihA]
        rcases List.any_eq_true.mp hc with ⟨r, hr, hrd⟩
        exact List.mem_map.mpr ⟨r, hr, eq_of_beq hrd⟩
      constructor
      · rw [hdois, ihA, List.map_append]
        rw [show [c].map (fun r => r.doi) = [c.doi] from rfl, firstSeenOrder_append_one]
        unfold seenInsert
        rw [if_pos (by simpa using hmem)]
      · intro d g gs hfil
        rw [List.filter_append] at hfil
        by_cases hdc : d = c.doi
        · rcases hl : l.filter (fun r => r.doi == d) with _ | ⟨g0, gs0⟩
          · exfalso
            rcases List.mem_map.mp ((mem_firstSeenOrder _ _).mp hmem) with ⟨r, hr, hrd⟩
            have hrf : r ∈ l.filter (fun r => r.doi == d) :=
              List.mem_filter.mpr ⟨hr, by rw [hrd, hdc]; exact beq_self_eq_true _⟩
            rw [hl] at hrf
            simp at hrf
          · rw [hl] at hfil
            have hfc : [c].filter (fun r => r.doi == d) = [c] := by simp [hdc]
            rw [hfc, List.cons_append] at hfil
            injection hfil with h1 h2
            subst h1
            subst h2
            rw [hadd, find?_doi_map_update, ihC d g0 gs0 hl]
            show some (if (mergedRecord d g0 gs0).doi == c.doi then
              backfillRecord (mergedRecord d g0 gs0) c else mergedRecord d g0 gs0) = _
            rw [show (mergedRecord d g0 gs0).doi = d from rfl,
              if_pos (by rw [hdc]; exact beq_self_eq_true _), backfill_mergedRecord]
        · have hfc : [c].filter (fun r => r.doi == d) = [] := by
            simp
            intro he
            exact absurd he.symm hdc
          rw [hfc, List.append_nil] at hfil
          rw [hadd, find?_doi_map_update, ihC d g gs hfil]
          show some (if (mergedRecord d g gs).doi == c.doi then _ else _) = _
          have hdd : (mergedRecord d g gs).doi = d := rfl
          rw [hdd, if_neg (by simp [hdc])]
    · -- new doi: appended at the end
      have hadd : add_to_merged (l.foldl add_to_merged []) c =
          (l.foldl add_to_merged []) ++ [c] := by
        rw [add_to_merged, if_neg hc]
      have hnotin : c.doi ∉ (l.foldl add_to_merged []).map (fun r => r.doi) := by
        intro hmem
        apply hc
        rcases List.mem_map.mp hmem with ⟨r, hr, hrd⟩
        exact List.any_eq_true.mpr ⟨r, hr, by simp [hrd]⟩
      have hnotin2 : c.doi ∉ l.map (fun r => r.doi) := by
        rw [ihA] at hnotin
        exact fun hx => hnotin ((mem_firstSeenOrder _ _).mpr hx)
      constructor
      · rw [hadd, List.map_append, ihA, List.map_append]
        rw [show [c].map (fun r => r.doi) = [c.doi] from rfl, firstSeenOrder_append_one]
        unfold seenInsert
        rw [if_neg (by rw [ihA] at hnotin; simpa using hnotin)]
      · intro d g gs hfil
        rw [List.filter_append] at hfil
        by_cases hdc : d = c.doi
        · have hlf : l.filter (fun r => r.doi == d) = [] := by
            rw [List.filter_eq_nil_iff]
            intro r hr hrb
            exact hnotin2 (List.mem_map.mpr ⟨r, hr, by rw [eq_of_beq hrb, hdc]⟩)
          rw [hlf, List.nil_append] at hfil
          have hfc : [c].filter (fun r => r.doi == d) = [c] := by simp [hdc]
          rw [hfc] at hfil
          injection hfil with h1 h2
          subst h1
          subst h2
          rw [hadd, List.find?_append]
          have hfm : (l.foldl add_to_merged []).find? (fun r => r.doi == d) = none :=
            List.find?_eq_none.mpr (fun r hr hrb =>
              hnotin (List.mem_map.mpr ⟨r, hr, by rw [eq_of_beq hrb, hdc]⟩))
          rw [hfm]
          show List.find? (fun r => r.doi == d) [c] = _
          rw [List.find?_cons_of_pos _ (by rw [hdc]; exact beq_self_eq_true _)]
          rw [mergedRecord_single d c hdc.symm]
        · have hfc : [c].filter (fun r => r.doi == d) = [] := by
            simp
            intro he
            exact absurd he.symm hdc
          rw [hfc, List.append_nil] at hfil
          rw [hadd, List.find?_append, ihC d g gs hfil]
          rfl

/-- C1: for every pair (and in general every group) of citation records with
the same canonical doi processed by merge_citations, the merged record for
that doi is the first-inserted record with each of title, authors and year
replaced by the first non-empty value offered in insertion order, so a
non-empty field of the first-inserted record is never overwritten, empty
fields are backfilled from later records only, and the source tag is the
first-inserted record's, never altered. -/
theorem merge_citations_backfill_first_record (oa oc : List Citation)
    (d : String) (g : Citation) (gs : List Citation)
    (h : (oa ++ oc).filter (fun r => r.doi == d) = g :: gs) :
    (merge_citations oa oc).find? (fun r => r.doi == d) = some (mergedRecord d g gs) ∧
    (mergedRecord d g gs).source = g.source ∧
    (g.title ≠ "" → (mergedRecord d g gs).title = g.title) ∧
    (g.authors ≠ [] → (mergedRecord d g gs).authors = g.authors) ∧
    (g.year ≠ "" → (mergedRecord d g gs).year = g.year) := by
  refine ⟨(merge_loop_invariant (oa ++ oc)).2 d g gs h, rfl, ?_, ?_, ?_⟩
  · intro ht
    show firstNonemptyString (g.title :: gs.map (fun r => r.title)) = g.title
    unfold firstNonemptyString
    rw [if_neg ht]
  · intro ht
    show firstNonemptyAuthors (g.authors :: gs.map (fun r => r.authors)) = g.authors
    unfold firstNonemptyAuthors
    rw [if_neg ht]
  · intro ht
    show firstNonemptyString (g.year :: gs.map (fun r => r.year)) = g.year
    unfold firstNonemptyString
    rw [if_neg ht]

/-- Witness for C1: two records sharing a doi, the first with a title and
authors but no year, the second with a title and a year; the merged record
keeps the first record's title, authors and source and backfills only the
year. -/
theorem merge_citations_backfill_witness :
    (merge_citations [wRecA] [wRecB]).find? (fun r => r.doi == "10.1000/a") =
      some (mergedRecord "10.1000/a" wRecA [wRecB]) ∧
    (mergedRecord "10.1000/a" wRecA [wRecB]).source = wRecA.source ∧
    (wRecA.title ≠ "" → (mergedRecord "10.1000/a" wRecA [wRecB]).title = wRecA.title) ∧
    (wRecA.authors ≠ [] →
      (mergedRecord "10.1000/a" wRecA [wRecB]).authors = wRecA.authors) ∧
    (wRecA.year ≠ "" → (mergedRecord "10.1000/a" wRecA [wRecB]).year = wRecA.year) :=
  merge_citations_backfill_first_record [wRecA] [wRecB] "10.1000/a" wRecA [wRecB]
    (by decide)

/-- C2: for every pair of input sequences, the merged output contains no two
records with the same doi, and the doi sequence of the output is exactly the
first-seen order of the dois of the OpenAlex records followed by the
OpenCitations records. -/
theorem merge_citations_unique_insertion_order (oa oc : List Citation) :
    (merge_citations oa oc).map (fun r => r.doi) =
      firstSeenOrder ((oa ++ oc).map (fun r => r.doi)) ∧
    ((merge_citations oa oc).map (fun r => r.doi)).Nodup := by
  have h := merge_loop_invariant (oa ++ oc)
  unfold merge_citations
  refine ⟨h.1, ?_⟩
  rw [h.1]
  exact nodup_firstSeenOrder _

-- ### Fetcher lemmas

theorem make_request_go_step (env : Nat → HttpResult) (a m : Nat)
    (h : isTerminalResult (env a) = false) :
    (make_request_go env a (m + 1)).result = (make_request_go env (a + 1) m).result := by
  simp only [make_request_go]
  rcases he : env a with ⟨code, body⟩ | _ | _ | _ <;> rw [he] at h
  · by_cases h200 : code = 200
    · subst h200
      rcases body with _ | b
      · rfl
      · simp [isTerminalResult] at h
    · by_cases h404 : code = 404
      · subst h404
        simp [isTerminalResult] at h
      · by_cases h429 : code = 429
        · subst h429
          rfl
        · simp only [h200, h404, h429, if_false, sleepCons]
  · rfl
  · rfl
  · rfl

theorem make_request_go_exhaust (env : Nat → HttpResult) :
    ∀ (n a : Nat), (∀ i, a ≤ i → i < a + n → isTerminalResult (env i) = false) →
      (make_request_go env a n).result = none := by
  intro n
  induction n with
  | zero => intro a _; rfl
  | succ m ih =>
    intro a h
    rw [make_request_go_step env a m (h a (Nat.le_refl a) (by omega))]
    exact ih (a + 1) (fun i h1 h2 => h i (by omega) (by omega))

theorem make_request_go_404 (env : Nat → HttpResult) (m : Nat) (body : Option Nat)
    (h404 : env 0 = HttpResult.response 404 body) :
    make_request_go env 0 (m + 1) = { result := none, attempts := 1, sleeps := [] } := by
  unfold make_request_go
  rw [h404]
  simp

/-- C5: the fetcher is a total function of the sequence of attempt outcomes
(it returns a value for every environment, so no condition escapes its
boundary); the default attempt budget is three; a 404 on the first attempt
returns none at once, after exactly one attempt and with no sleep; and a
budget in which no attempt is terminal (a decodable 200 or a 404) is
exhausted and returns none. -/
theorem make_request_error_handling (env : Nat → HttpResult) (retry : Nat)
    (body : Option Nat) :
    RETRY_COUNT = 3 ∧
    (env 0 = HttpResult.response 404 body → 1 ≤ retry →
      make_request env retry = none ∧
      make_request_go env 0 retry = { result := none, attempts := 1, sleeps := [] }) ∧
    ((∀ i, i < retry → isTerminalResult (env i) = false) →
      make_request env retry = none) := by
  refine ⟨rfl, ?_, ?_⟩
  · intro h404 hr
    rcases retry with _ | m
    · omega
    · have h := make_request_go_404 env m body h404
      constructor
      · unfold make_request
        rw [h]
      · exact h
  · intro hnt
    unfold make_request
    exact make_request_go_exhaust env retry 0 (fun i _ h2 => hnt i (by omega))

/-- Witness for C5: a first-attempt 404 environment returns none in one
attempt, and an environment of nothing but timeouts exhausts the default
budget of three attempts and returns none. -/
theorem make_request_error_handling_witness :
    (make_request wFetchEnv404 3 = none ∧
      make_request_go wFetchEnv404 0 3 = { result := none, attempts := 1, sleeps := [] }) ∧
    make_request wFetchEnvTimeout 3 = none :=
  ⟨(make_request_error_handling wFetchEnv404 3 none).2.1 rfl (by omega),
   (make_request_error_handling wFetchEnvTimeout 3 none).2.2 (fun i _ => rfl)⟩

theorem make_request_go_429_run (env : Nat → HttpResult) (b : Nat) :
    ∀ (k a n : Nat), k < n →
      (∀ i, i < k → ∃ d, env (a + i) = HttpResult.response 429 d) →
      env (a + k) = HttpResult.response 200 (some b) →
      make_request_go env a n =
        { result := some b, attempts := k + 1,
          sleeps := (List.range k).map (fun i => (a + i + 1) * 5) } := by
  intro k
  induction k with
  | zero =>
    intro a n hn h429 h200
    rcases n with _ | m
    · omega
    · unfold make_request_go
      rw [show a + 0 = a from rfl] at h200
      rw [h200]
      simp
  | succ j ih =>
    intro a n hn h429 h200
    rcases n with _ | m
    · omega
    · obtain ⟨d, hd⟩ := h429 0 (by omega)
      rw [show a + 0 = a from rfl] at hd
      unfold make_request_go
      rw [hd]
      have ihh := ih (a + 1) m (by omega)
        (fun i hi => by
          have hx := h429 (i + 1) (by omega)
          rwa [show a + (i + 1) = (a + 1) + i from by omega] at hx)
        (by rwa [show (a + 1) + j = a + (j + 1) from by omega])
      simp only [show ((429 : Nat) = 200) = False from by simp,
        show ((429 : Nat) = 404) = False from by simp,
        show ((429 : Nat) = 429) = True from by simp, if_false, if_true]
      rw [ihh]
      unfold sleepCons
      simp only [FetchTrace.mk.injEq]
      refine ⟨trivial, trivial, ?_⟩
      rw [List.range_succ_eq_map, List.map_cons, List.map_map]
      rw [show a + 0 + 1 = a + 1 from by omega]
      congr 1
      apply List.map_congr_left
      intro i _
      simp only [Function.comp_apply]
      omega

/-- C9: when the first k attempts are rate-limited (HTTP 429) and attempt k
returns a decodable 200 within the retry budget, make_request sleeps the
increasing backoff of five seconds times the one-based attempt index after
each 429 and returns exactly the decoded body an immediate 200 would have
produced. -/
theorem make_request_429_backoff (env : Nat → HttpResult) (k retry b : Nat)
    (hk : k < retry)
    (h429 : ∀ i, i < k → ∃ d, env i = HttpResult.response 429 d)
    (h200 : env k = HttpResult.response 200 (some b)) :
    make_request env retry = some b ∧
    (make_request_go env 0 retry).sleeps = (List.range k).map (fun i => (i + 1) * 5) ∧
    make_request env retry = make_request (fun _ => HttpResult.response 200 (some b)) retry := by
  have hrun := make_request_go_429_run env b k 0 retry hk
    (fun i hi => by simpa using h429 i hi)
    (by simpa using h200)
  refine ⟨?_, ?_, ?_⟩
  · unfold make_request
    rw [hrun]
  · rw [hrun]
    apply List.map_congr_left
    intro i _
    show (0 + i + 1) * 5 = (i + 1) * 5
    omega
  · unfold make_request
    rw [hrun]
    rcases retry with _ | m
    · omega
    · rfl

/-- Witness for C9: one 429 followed by a 200 with body 7 inside the default
budget sleeps five seconds once and returns the same body as an immediate
200. -/
theorem make_request_429_backoff_witness :
    make_request wFetchEnv429 3 = some 7 ∧
    (make_request_go wFetchEnv429 0 3).sleeps = (List.range 1).map (fun i => (i + 1) * 5) ∧
    make_request wFetchEnv429 3 = make_request (fun _ => HttpResult.response 200 (some 7)) 3 :=
  make_request_429_backoff wFetchEnv429 1 3 7 (by omega)
    (fun i hi => by
      interval_cases i
      exact ⟨none, rfl⟩)
    rfl

-- ### OpenAlex pagination lemmas

theorem openalex_page_loop_le (env : Nat → Option OpenAlexPage) :
    ∀ (fuel idx : Nat) (cursor : Option String) (acc : List Citation),
      (openalex_page_loop env fuel idx cursor acc).2 ≤ fuel := by
  intro fuel
  induction fuel with
  | zero =>
    intro idx cursor acc
    exact Nat.le_refl 0
  | succ f ih =>
    intro idx cursor acc
    simp only [openalex_page_loop]
    by_cases hcur : cursorTruthy cursor
    · rw [if_pos hcur]
      rcases he : env idx with _ | page
      · simp
      · have h := ih (idx + 1) page.next_cursor (acc ++ openalexRecordsOfPage page.results)
        simp only []
        omega
    · rw [if_neg hcur]
      simp

theorem openalex_page_loop_all_cursor (env : Nat → Option OpenAlexPage)
    (henv : ∀ i, ∃ p, env i = some p ∧ cursorTruthy p.next_cursor = true) :
    ∀ (fuel idx : Nat) (cursor : Option String) (acc : List Citation),
      cursorTruthy cursor = true →
      (openalex_page_loop env fuel idx cursor acc).2 = fuel := by
  intro fuel
  induction fuel with
  | zero =>
    intro idx cursor acc _
    rfl
  | succ f ih =>
    intro idx cursor acc hcur
    obtain ⟨p, hp, hpc⟩ := henv idx
    simp only [openalex_page_loop]
    rw [if_pos hcur, hp]
    simp only []
    rw [ih (idx + 1) p.next_cursor (acc ++ openalexRecordsOfPage p.results) hpc]

/-- C7: the pagination loop of the OpenAlex adapter is total (it is a
function of the page environment) and issues at most the hard cap of 50 page
requests from any state; and when every page response carries a live
next_cursor, the loop run by get_citations_from_openalex stops after exactly
the 50-page cap. -/
theorem openalex_pagination_cap (env : Nat → Option OpenAlexPage) :
    (∀ (idx : Nat) (cursor : Option String) (acc : List Citation),
      (openalex_page_loop env OPENALEX_MAX_PAGES idx cursor acc).2 ≤ 50) ∧
    ((∀ i, ∃ p, env i = some p ∧ cursorTruthy p.next_cursor = true) →
      (openalex_page_loop env OPENALEX_MAX_PAGES 0 (some "*") []).2 = 50) := by
  constructor
  · intro idx cursor acc
    exact openalex_page_loop_le env OPENALEX_MAX_PAGES idx cursor acc
  · intro henv
    exact openalex_page_loop_all_cursor env henv OPENALEX_MAX_PAGES 0 (some "*") []
      (by decide)

/-- Witness for C7: an environment that always offers a cursor makes the
loop issue exactly 50 requests, and from an exhausted-cursor state the
request count stays within the cap. -/
theorem openalex_pagination_cap_witness :
    (openalex_page_loop wPagesAlways OPENALEX_MAX_PAGES 0 (some "*") []).2 = 50 ∧
    (openalex_page_loop wPagesAlways OPENALEX_MAX_PAGES 3 none []).2 ≤ 50 :=
  ⟨(openalex_pagination_cap wPagesAlways).2 (fun _ => ⟨_, rfl, by decide⟩),
   (openalex_pagination_cap wPagesAlways).1 3 none []⟩

-- ### Enrichment lemmas

theorem applyCrossref_props (c : Citation) (m : String × List String × String) :
    (applyCrossref c m).doi = c.doi ∧ (applyCrossref c m).source = c.source ∧
    (applyCrossref c m).title = (if c.title = "" ∧ m.1 ≠ "" then m.1 else c.title) ∧
    (applyCrossref c m).authors =
      (if c.authors = [] ∧ m.2.1 ≠ [] then m.2.1 else c.authors) ∧
    (applyCrossref c m).year = (if c.year = "" ∧ m.2.2 ≠ "" then m.2.2 else c.year) ∧
    (c.title ≠ "" → (applyCrossref c m).title = c.title) ∧
    (c.authors ≠ [] → (applyCrossref c m).authors = c.authors) ∧
    (c.year ≠ "" → (applyCrossref c m).year = c.year) ∧
    (m = ("", [], "") → applyCrossref c m = c) := by
  have ht : (applyCrossref c m).title =
      (if c.title = "" ∧ m.1 ≠ "" then m.1 else c.title) := by
    show (if m.1 ≠ "" ∧ c.title = "" then m.1 else c.title) = _
    by_cases hx : m.1 ≠ "" ∧ c.title = ""
    · rw [if_pos hx, if_pos ⟨hx.2, hx.1⟩]
    · rw [if_neg hx, if_neg (fun hz => hx ⟨hz.2, hz.1⟩)]
  have ha : (applyCrossref c m).authors =
      (if c.authors = [] ∧ m.2.1 ≠ [] then m.2.1 else c.authors) := by
    show (if m.2.1 ≠ [] ∧ c.authors = [] then m.2.1 else c.authors) = _
    by_cases hx : m.2.1 ≠ [] ∧ c.authors = []
    · rw [if_pos hx, if_pos ⟨hx.2, hx.1⟩]
    · rw [if_neg hx, if_neg (fun hz => hx ⟨hz.2, hz.1⟩)]
  have hyr : (applyCrossref c m).year =
      (if c.year = "" ∧ m.2.2 ≠ "" then m.2.2 else c.year) := by
    show (if m.2.2 ≠ "" ∧ c.year = "" then m.2.2 else c.year) = _
    by_cases hx : m.2.2 ≠ "" ∧ c.year = ""
    · rw [if_pos hx, if_pos ⟨hx.2, hx.1⟩]
    · rw [if_neg hx, if_neg (fun hz => hx ⟨hz.2, hz.1⟩)]
  refine ⟨rfl, rfl, ht, ha, hyr, ?_, ?_, ?_, ?_⟩
  · intro hne
    rw [ht, if_neg (fun hx => hne hx.1)]
  · intro hne
    rw [ha, if_neg (fun hx => hne hx.1)]
  · intro hne
    rw [hyr, if_neg (fun hx => hne hx.1)]
  · intro hm
    subst hm
    show applyCrossref c ("", [], "") = c
    unfold applyCrossref
    simp

/-- C6: the enrichment stage looks up exactly the records with an empty
title, authors or year (the trace of queried dois equals the dois of the
records needing enrichment, in order), and fully determines every output
record positionally: doi and source are unchanged, and each of title,
authors and year equals the looked-up value exactly when the record's value
was empty and the looked-up value is not, and the record's own value
otherwise — so empty fields really are backfilled from a successful lookup,
a non-empty field is never overwritten, and a failed or all-empty lookup
leaves the record unchanged. -/
theorem enrich_citation_metadata_backfill
    (lookup : String → String × List String × String) (cs : List Citation) :
    (enrich_citation_metadata lookup cs).2 =
      (cs.filter needsEnrichment).map (fun c => c.doi) ∧
    List.Forall₂ (fun c c' =>
      c'.doi = c.doi ∧ c'.source = c.source ∧
      c'.title = (if c.title = "" ∧ (lookup c.doi).1 ≠ ""
        then (lookup c.doi).1 else c.title) ∧
      c'.authors = (if c.authors = [] ∧ (lookup c.doi).2.1 ≠ []
        then (lookup c.doi).2.1 else c.authors) ∧
      c'.year = (if c.year = "" ∧ (lookup c.doi).2.2 ≠ ""
        then (lookup c.doi).2.2 else c.year) ∧
      (c.title ≠ "" → c'.title = c.title) ∧
      (c.authors ≠ [] → c'.authors = c.authors) ∧
      (c.year ≠ "" → c'.year = c.year) ∧
      (lookup c.doi = ("", [], "") → c' = c)) cs (enrich_citation_metadata lookup cs).1 := by
  induction cs with
  | nil => exact ⟨rfl, List.Forall₂.nil⟩
  | cons c t ih =>
    obtain ⟨ih1, ih2⟩ := ih
    by_cases h : needsEnrichment c
    · constructor
      · simp only [enrich_citation_metadata, if_pos h]
        rw [List.filter_cons_of_pos h, List.map_cons, ih1]
      · simp only [enrich_citation_metadata, if_pos h]
        refine List.Forall₂.cons ?_ ih2
        obtain ⟨p1, p2, p3, p4, p5, p6, p7, p8, p9⟩ := applyCrossref_props c (lookup c.doi)
        exact ⟨p1, p2, p3, p4, p5, p6, p7, p8, p9⟩
    · have hfields : (¬ c.title = "" ∧ ¬ c.authors = []) ∧ ¬ c.year = "" := by
        simpa [needsEnrichment] using h
      constructor
      · simp only [enrich_citation_metadata, if_neg h]
        rw [List.filter_cons_of_neg h]
        exact ih1
      · simp only [enrich_citation_metadata, if_neg h]
        refine List.Forall₂.cons ?_ ih2
        refine ⟨rfl, rfl, ?_, ?_, ?_, fun _ => rfl, fun _ => rfl, fun _ => rfl,
          fun _ => rfl⟩
        · rw [if_neg (fun hx => hfields.1.1 hx.1)]
        · rw [if_neg (fun hx => hfields.1.2 hx.1)]
        · rw [if_neg (fun hx => hfields.2 hx.1)]

/-- Witness for C6: a concrete lookup and record list on which the
enrichment theorem is instantiated; the record missing its title and year
is filled from the lookup, the complete record is untouched. -/
theorem enrich_citation_metadata_backfill_witness :
    (enrich_citation_metadata wLookup wEnrichList).2 =
      (wEnrichList.filter needsEnrichment).map (fun c => c.doi) ∧
    List.Forall₂ (fun c c' =>
      c'.doi = c.doi ∧ c'.source = c.source ∧
      c'.title = (if c.title = "" ∧ (wLookup c.doi).1 ≠ ""
        then (wLookup c.doi).1 else c.title) ∧
      c'.authors = (if c.authors = [] ∧ (wLookup c.doi).2.1 ≠ []
        then (wLookup c.doi).2.1 else c.authors) ∧
      c'.year = (if c.year = "" ∧ (wLookup c.doi).2.2 ≠ ""
        then (wLookup c.doi).2.2 else c.year) ∧
      (c.title ≠ "" → c'.title = c.title) ∧
      (c.authors ≠ [] → c'.authors = c.authors) ∧
      (c.year ≠ "" → c'.year = c.year) ∧
      (wLookup c.doi = ("", [], "") → c' = c)) wEnrichList
      (enrich_citation_metadata wLookup wEnrichList).1 :=
  enrich_citation_metadata_backfill wLookup wEnrichList

-- ### Orchestrator lemmas

theorem odInsert_find?_self (res : List (String × List Citation)) (k : String)
    (v : List Citation) :
    (odInsert res k v).find? (fun p => p.1 == k) = some (k, v) := by
  unfold odInsert
  by_cases h : res.any (fun p => p.1 == k)
  · rw [if_pos h, List.find?_map]
    have hpq : ((fun p : String × List Citation => p.1 == k) ∘
        (fun p => if p.1 == k then (k, v) else p)) =
        (fun p : String × List Citation => p.1 == k) := by
      funext p
      show ((if p.1 == k then (k, v) else p).1 == k) = (p.1 == k)
      cases hp : p.1 == k
      · simp [hp]
      · simp [hp]
    rw [hpq]
    rcases hf : res.find? (fun p => p.1 == k) with _ | q
    · rw [List.find?_eq_none] at hf
      rcases List.any_eq_true.mp h with ⟨p, hp, hpk⟩
      exact absurd hpk (hf p hp)
    · have hq := List.find?_some hf
      rw [hf]
      show some (if q.1 == k then (k, v) else q) = some (k, v)
      rw [if_pos hq]
  · rw [if_neg h]
    have hnone : res.find? (fun p => p.1 == k) = none := by
      rw [List.find?_eq_none]
      intro p hp hpk
      exact h (List.any_eq_true.mpr ⟨p, hp, hpk⟩)
    rw [List.find?_append, hnone]
    rw [List.find?_cons_of_pos _ (by simp)]
    rfl

theorem odInsert_find?_other (res : List (String × List Citation)) (k k' : String)
    (v : List Citation) (hne : k' ≠ k) :
    (odInsert res k v).find? (fun p => p.1 == k') =
      res.find? (fun p => p.1 == k') := by
  unfold odInsert
  by_cases h : res.any (fun p => p.1 == k)
  · rw [if_pos h, List.find?_map]
    have hpq : ((fun p : String × List Citation => p.1 == k') ∘
        (fun p => if p.1 == k then (k, v) else p)) =
        (fun p : String × List Citation => p.1 == k') := by
      funext p
      show ((if p.1 == k then (k, v) else p).1 == k') = (p.1 == k')
      cases hp : p.1 == k
      · simp [hp]
      · simp [hp, eq_of_beq hp]
    rw [hpq]
    rcases hf : res.find? (fun p => p.1 == k') with _ | q
    · rw [hf]
      rfl
    · have hq := List.find?_some hf
      have hq' : q.1 = k' := eq_of_beq hq
      rw [hf]
      show some (if q.1 == k then (k, v) else q) = some q
      rw [if_neg (by rw [hq']; exact fun hx => hne (eq_of_beq hx))]
  · rw [if_neg h, List.find?_append]
    rcases hf : res.find? (fun p => p.1 == k') with _ | q
    · have hsingle : List.find? (fun p : String × List Citation => p.1 == k') [(k, v)] =
          none := by
        rw [List.find?_eq_none]
        intro p hp hpk
        rcases List.mem_singleton.mp hp with rfl
        exact hne (eq_of_beq hpk).symm
      rw [hf, hsingle]
      rfl
    · rw [hf]
      rfl

theorem main_loop_mem (env : String → ProcessOutcome) :
    ∀ (ds : List String) (res : List (String × List Citation)),
      (∀ x ∈ ds, env x ≠ ProcessOutcome.interrupted) →
      ∀ d, (d ∈ ds ∨ ∃ v, res.find? (fun p => p.1 == d) = some (d, v) ∧
              (env d = ProcessOutcome.failure → v = []) ∧
              (∀ cs, env d = ProcessOutcome.ok cs → v = cs)) →
      ∃ v, (main_loop env ds res).find? (fun p => p.1 == d) = some (d, v) ∧
        (env d = ProcessOutcome.failure → v = []) ∧
        (∀ cs, env d = ProcessOutcome.ok cs → v = cs) := by
  intro ds
  induction ds with
  | nil =>
    intro res _ d h
    rcases h with h | h
    · simp at h
    · exact h
  | cons d0 t ih =>
    intro res hni d h
    have hd0 : env d0 ≠ ProcessOutcome.interrupted := hni d0 (by simp)
    rcases he : env d0 with cs0 | _ | _
    · have hstep : main_loop env (d0 :: t) res = main_loop env t (odInsert res d0 cs0) := by
        simp only [main_loop, he]
      rw [hstep]
      apply ih (odInsert res d0 cs0) (fun x hx => hni x (by simp [hx]))
      by_cases hdd : d = d0
      · right
        subst hdd
        refine ⟨cs0, odInsert_find?_self res d cs0, ?_, ?_⟩
        · intro hf
          rw [he] at hf
          cases hf
        · intro cs hok
          rw [he] at hok
          injection hok with hh
      · rcases h with hmem | ⟨v, hv, hprops⟩
        · rcases List.mem_cons.mp hmem with rfl | hmem2
          · exact absurd rfl hdd
          · left
            exact hmem2
        · right
          exact ⟨v, by rw [odInsert_find?_other res d0 d cs0 hdd]; exact hv, hprops⟩
    · have hstep : main_loop env (d0 :: t) res = main_loop env t (odInsert res d0 []) := by
        simp only [main_loop, he]
      rw [hstep]
      apply ih (odInsert res d0 []) (fun x hx => hni x (by simp [hx]))
      by_cases hdd : d = d0
      · right
        subst hdd
        refine ⟨[], odInsert_find?_self res d [], fun _ => rfl, ?_⟩
        intro cs hok
        rw [he] at hok
        cases hok
      · rcases h with hmem | ⟨v, hv, hprops⟩
        · rcases List.mem_cons.mp hmem with rfl | hmem2
          · exact absurd rfl hdd
          · left
            exact hmem2
        · right
          exact ⟨v, by rw [odInsert_find?_other res d0 d [] hdd]; exact hv, hprops⟩
    · exact absurd he hd0

/-- C8: if no identifier in the batch triggers an operator interrupt, every
identifier of the list has an entry in the result mapping produced by the
orchestrator loop of main: an identifier whose processing raised a caught
failure is recorded with an empty citation list, and one whose processing
returned citations is recorded with exactly those citations; processing an
identifier that fails does not stop the identifiers after it from being
recorded. -/
theorem main_results_records_every_identifier (env : String → ProcessOutcome)
    (dois : List String)
    (hni : ∀ x ∈ dois, env x ≠ ProcessOutcome.interrupted)
    (d : String) (hd : d ∈ dois) :
    ∃ v, (main_results env dois).find? (fun p => p.1 == d) = some (d, v) ∧
      (env d = ProcessOutcome.failure → v = []) ∧
      (∀ cs, env d = ProcessOutcome.ok cs → v = cs) :=
  main_loop_mem env dois [] hni d (Or.inl hd)

/-- Witness for C8: in a two-identifier batch whose first identifier fails,
the failing identifier still has an entry, recorded as the empty list. -/
theorem main_results_records_witness :
    ∃ v, (main_results wOrchEnv ["10.1/a", "10.1/b"]).find?
        (fun p => p.1 == "10.1/a") = some ("10.1/a", v) ∧
      (wOrchEnv "10.1/a" = ProcessOutcome.failure → v = []) ∧
      (∀ cs, wOrchEnv "10.1/a" = ProcessOutcome.ok cs → v = cs) :=
  main_results_records_every_identifier wOrchEnv ["10.1/a", "10.1/b"]
    (by decide) "10.1/a" (by decide)

-- ### Depositor-report lemmas

theorem pyUpper_of_pyLower {c lo : Char} (h : pyLower c = lo)
    (hlo : 97 ≤ lo.toNat ∧ lo.toNat ≤ 122) (up : Char) (hup : up.toNat = lo.toNat - 32) :
    pyUpper c = up := by
  have hln : (pyLower c).toNat = lo.toNat := by rw [h]
  have ht := pyLower_toNat c
  rw [ht] at hln
  by_cases hc : 65 ≤ c.toNat ∧ c.toNat ≤ 90
  · rw [if_pos hc] at hln
    have hid : pyUpper c = c := by
      unfold pyUpper
      rw [if_neg (by omega)]
    rw [hid]
    exact char_toNat_inj (by omega)
  · rw [if_neg hc] at hln
    unfold pyUpper
    rw [if_pos (by omega)]
    apply char_toNat_inj
    rw [toNat_charOfNat (by omega)]
    omega

theorem processDepositorLine_skips_doi_header (l : List Char)
    (h : ("doi".data).isPrefixOf ((pyStrip l).map pyLower) = true) :
    processDepositorLine l = none := by
  have e : "doi".data = 'd' :: 'o' :: 'i' :: [] := rfl
  rcases hs : pyStrip l with _ | ⟨c0, _ | ⟨c1, _ | ⟨c2, rest⟩⟩⟩ <;> rw [hs, e] at h
  · simp [List.isPrefixOf] at h
  · simp [List.isPrefixOf_cons₂] at h
  · simp [List.isPrefixOf_cons₂] at h
  · simp only [List.map_cons, List.isPrefixOf_cons₂, List.isPrefixOf_nil_left,
      Bool.and_true, Bool.and_eq_true, beq_iff_eq] at h
    obtain ⟨h0, h1, h2⟩ := h
    have hU0 : pyUpper c0 = 'D' := pyUpper_of_pyLower h0.symm (by decide) 'D' (by decide)
    have hU1 : pyUpper c1 = 'O' := pyUpper_of_pyLower h1.symm (by decide) 'O' (by decide)
    have hU2 : pyUpper c2 = 'I' := pyUpper_of_pyLower h2.symm (by decide) 'I' (by decide)
    simp only [processDepositorLine]
    rw [hs]
    rw [if_neg (by simp)]
    rw [if_pos ?hpre]
    case hpre =>
      simp [List.isPrefixOf_cons₂, hU0, hU1, hU2]

/-- C10: the depositor-report reader drops every non-empty line whose
stripped text begins, case-insensitively, with the three characters doi,
treating it as a header line; in particular a report line whose first
column is a doi:-prefixed identifier contributes nothing, even though
normalize_doi accepts that column on its own. -/
theorem depositor_report_drops_doi_prefixed_lines :
    (∀ l : List Char, ("doi".data).isPrefixOf ((pyStrip l).map pyLower) = true →
      processDepositorLine l = none) ∧
    read_dois_from_crossref_depositor_report
        (some "doi:10.1234/abc something\n10.5555/x y\n") = ["10.5555/x"] ∧
    normalize_doi "doi:10.1234/abc" = some "10.1234/abc" :=
  ⟨processDepositorLine_skips_doi_header, by decide, by decide⟩

/-- Witness for C10: a concrete header line starting with DOI is dropped by
the per-line reader step. -/
theorem depositor_report_drops_witness :
    processDepositorLine ("DOI Title Owner".data) = none :=
  (depositor_report_drops_doi_prefixed_lines).1 ("DOI Title Owner".data) (by decide)
